import Mathlib

/-!
Verification of the scanning and record-aggregation engine of the
`rust_mdns_client` repository: a shallow embedding of `src/main.rs`.

* `IpAddr`, `RecordEntry`, `RecordEntries` mirror the record model
  (`enum RecordEntry { A(Ipv4Addr, String), AAAA(Ipv6Addr, String) }`);
  IPv4/IPv6 addresses are modelled as `Nat` (their numeric value), whose
  order agrees with the derived `Ord` on the Rust address types.
* `applyOne`/`applyBatch` mirror the body of the response loop in
  `App::start_scanner` (lines 161–177): per binding, `retain` away entries
  with the same (family, host-name) key, `push` the new entry, and after the
  whole batch, `sort` the vector (the stable Rust `sort` by the derived `Ord`,
  modelled by `List.mergeSort` with `RecordEntry.le`).
* `scanLoop`/`scanTask` mirror the spawned task: `discover::all(..).unwrap()`
  (panic on open error, modelled by `TaskOutcome.panicked`) and
  `while let Some(Ok(response)) = stream.next().await` (the loop ends at the
  first `Err` item or at the end of the stream).
* `AppM`, `startScanner`, `clearRecords`, `handleKeyEvent`, `mainInit` mirror
  the application state machine (`App`, `App::start_scanner`,
  `App::handle_key_event`, `main`); the ghost field `trace` records the
  controller actions (cancel+await, launch, clear) in the order the code
  performs them.
* `StoreOp`/`runOp`/`batchOps` decompose one batch application into the
  individual critical sections the Rust code takes (each
  `records.lock().unwrap()` acquisition is one atomic step), to reason about
  what a concurrent `snapshot()` may observe.
-/

namespace MdnsClient

/-- `std::net::IpAddr`: either a v4 or a v6 address, addresses as numbers. -/
inductive IpAddr : Type where
  | v4 (addr : Nat) : IpAddr
  | v6 (addr : Nat) : IpAddr
deriving DecidableEq, Repr

/-- `IpAddr::is_ipv4`. -/
def IpAddr.is_ipv4 : IpAddr → Bool
  | .v4 _ => true
  | .v6 _ => false

/-- `IpAddr::is_ipv6`. -/
def IpAddr.is_ipv6 : IpAddr → Bool
  | .v4 _ => false
  | .v6 _ => true

/-- `enum RecordEntry { A(Ipv4Addr, String), AAAA(Ipv6Addr, String) }`. -/
inductive RecordEntry : Type where
  | A (addr : Nat) (name : String) : RecordEntry
  | AAAA (addr : Nat) (name : String) : RecordEntry
deriving DecidableEq, Repr

/-- `RecordEntry::new(ip: IpAddr, name: String)`. -/
def RecordEntry.new (ip : IpAddr) (name : String) : RecordEntry :=
  match ip with
  | .v4 addr => .A addr name
  | .v6 addr => .AAAA addr name

/-- `RecordEntry::get_name`. -/
def RecordEntry.get_name : RecordEntry → String
  | .A _ name => name
  | .AAAA _ name => name

/-- `RecordEntry::is_ipv4`. -/
def RecordEntry.is_ipv4 : RecordEntry → Bool
  | .A _ _ => true
  | .AAAA _ _ => false

/-- `RecordEntry::is_ipv6`. -/
def RecordEntry.is_ipv6 : RecordEntry → Bool
  | .A _ _ => false
  | .AAAA _ _ => true

/-- `RecordEntry::get_addr`. -/
def RecordEntry.get_addr : RecordEntry → IpAddr
  | .A addr _ => .v4 addr
  | .AAAA addr _ => .v6 addr

/-- Lexicographic comparison of an (address, name) field pair, as the derived
`Ord` compares the fields of one `RecordEntry` variant. -/
def lexLe (a b : Nat) (n m : String) : Bool :=
  decide (a < b) || (decide (a = b) && decide (n ≤ m))

/-- The derived `Ord` on `RecordEntry`: variant order (`A` before `AAAA`),
then the fields lexicographically (address, then name). -/
def RecordEntry.le (x y : RecordEntry) : Bool :=
  match x, y with
  | .A _ _, .AAAA _ _ => true
  | .AAAA _ _, .A _ _ => false
  | .A a n, .A b m => lexLe a b n m
  | .AAAA a n, .AAAA b m => lexLe a b n m

/-- The `entries` vector of `RecordEntries` (the stored `BindingSet`). -/
abbrev Store := List RecordEntry

/-- One extracted `(IpAddr, String)` pair from a response: an address binding. -/
abbrev Binding := IpAddr × String

/-- The eviction predicate used in the `retain` call of `start_scanner`
(negated there): an existing entry `r` is dropped iff its family matches the
family of the incoming address and its name equals the incoming name. -/
def evicts (addr : IpAddr) (name : String) (r : RecordEntry) : Bool :=
  match r with
  | .A _ n => addr.is_ipv4 && n == name
  | .AAAA _ n => addr.is_ipv6 && n == name

/-- Processing one `(addr, name)` pair in the `for (addr, name) in res` loop:
`retain` (drop same-key entries), then `push` the new entry. -/
def applyOne (s : Store) (p : Binding) : Store :=
  (s.filter fun r => !evicts p.1 p.2 r) ++ [RecordEntry.new p.1 p.2]

/-- Applying the batch of bindings of one response (lines 165–176): process each
pair in order, then `sort()` the vector. -/
def applyBatch (s : Store) (b : List Binding) : Store :=
  (b.foldl applyOne s).mergeSort RecordEntry.le

/-- The store after a sequence of complete `apply(batch)` calls, starting
from the empty store. -/
def applyAll (bs : List (List Binding)) : Store :=
  bs.foldl applyBatch []

/-- The `(family, hostName)` key of a stored entry (`true` = IPv4). -/
def RecordEntry.keyOf (r : RecordEntry) : Bool × String :=
  (r.is_ipv4, r.get_name)

/-- The `(family, hostName)` key of an incoming binding (`true` = IPv4). -/
def bindingKey (p : Binding) : Bool × String :=
  (p.1.is_ipv4, p.2)

/-- `RecordEntries::find(name)`: filter the entries by name, split by family,
and `pop()` (take the last element) of each part. -/
def RecordEntries.find (s : Store) (name : String) : Option IpAddr × Option IpAddr :=
  let remaining := s.filter fun r => r.get_name == name
  let ipv4 := remaining.filter fun r => r.is_ipv4
  let ipv6 := remaining.filter fun r => r.is_ipv6
  (ipv4.getLast?.map RecordEntry.get_addr, ipv6.getLast?.map RecordEntry.get_addr)

/-- The last binding for key `k` in a sequence of applied bindings, if any. -/
def lastWithKey (k : Bool × String) (l : List Binding) : Option Binding :=
  (l.filter fun p => bindingKey p == k).getLast?

/-- Whether some binding of `b` carries key `k`. -/
def hasKey (b : List Binding) (k : Bool × String) : Bool :=
  b.any fun p => bindingKey p == k

/-- Whether the key of entry `r` occurs in none of the bindings of `b`:
exactly the entries of the old store that survive all `retain` calls of one
batch. -/
def keyFree (b : List Binding) (r : RecordEntry) : Bool :=
  !hasKey b r.keyOf

/-! The scan task (the closure spawned by `App::start_scanner`). -/

/-- `mdns::RecordKind`, restricted to what `to_ip_addr` distinguishes. -/
inductive RecordKind : Type where
  | A (addr : Nat) : RecordKind
  | AAAA (addr : Nat) : RecordKind
  | other : RecordKind
deriving DecidableEq

/-- `mdns::Record`: one answer record of a response. -/
structure DnsRecord : Type where
  kind : RecordKind
  name : String
deriving DecidableEq

/-- `fn to_ip_addr(record: &Record) -> Option<(IpAddr, String)>`. -/
def to_ip_addr (record : DnsRecord) : Option Binding :=
  match record.kind with
  | .A addr => some (IpAddr.v4 addr, record.name)
  | .AAAA addr => some (IpAddr.v6 addr, record.name)
  | .other => none

/-- An mDNS response: the sequence its `records()` iterator yields. -/
structure Response : Type where
  records : List DnsRecord
deriving DecidableEq

/-- `response.records().filter_map(to_ip_addr).collect()`. -/
def responseBatch (resp : Response) : List Binding :=
  resp.records.filterMap to_ip_addr

/-- The listen loop `while let Some(Ok(response)) = stream.next().await`:
the loop body applies the batch of the response; the loop exits at the end
of the stream or at the first `Err` stream item (the `while let` pattern
fails to match `Some(Err(_))`). -/
def scanLoop (s : Store) : List (Except Unit Response) → Store
  | [] => s
  | .error _ :: _ => s
  | .ok resp :: rest => scanLoop (applyBatch s (responseBatch resp)) rest

/-- Outcome of the spawned scan task. -/
inductive TaskOutcome : Type where
  | panicked : TaskOutcome
  | stopped (s : Store) : TaskOutcome
deriving DecidableEq

/-- The body of the spawned task: `discover::all(query, ..).unwrap().listen()`
panics (`unwrap`) when opening the discovery session fails, and otherwise
runs the listen loop over the stream of the session. `session` is the result
of `discover::all`, modelled as the finite list of stream items the task gets
to consume. -/
def scanTask (session : Except Unit (List (Except Unit Response))) (s0 : Store) : TaskOutcome :=
  match session with
  | .error _ => .panicked
  | .ok stream => .stopped (scanLoop s0 stream)

/-! The per-lock-acquisition decomposition of one batch application.
Each `records.lock().unwrap()` in the loop body is one atomic critical
section: the `retain`, the `push` and the final `sort` each take and release
the lock separately, so a concurrent reader can run between any two of these
steps. -/

/-- One atomic critical section of the writer. -/
inductive StoreOp : Type where
  | evictOp (p : Binding) : StoreOp
  | pushOp (p : Binding) : StoreOp
  | sortOp : StoreOp
deriving DecidableEq

/-- Effect of one critical section on the store. -/
def runOp (s : Store) : StoreOp → Store
  | .evictOp p => s.filter fun r => !evicts p.1 p.2 r
  | .pushOp p => s ++ [RecordEntry.new p.1 p.2]
  | .sortOp => s.mergeSort RecordEntry.le

/-- The critical sections one batch performs, in program order. -/
def batchOps (b : List Binding) : List StoreOp :=
  (b.flatMap fun p => [StoreOp.evictOp p, StoreOp.pushOp p]) ++ [StoreOp.sortOp]

/-- The store a concurrent `snapshot()` observes after the first `i` critical
sections of a batch `b` running against store `s`. -/
def midStore (s : Store) (b : List Binding) (i : Nat) : Store :=
  ((batchOps b).take i).foldl runOp s

/-! The application state machine (`App`, `App::handle_key_event`, `main`). -/

/-- Controller actions, recorded in program order by the ghost trace:
cancelling and awaiting the running task, launching a task generation for a
query, and clearing the record store. -/
inductive CtrlAction : Type where
  | cancelAwait (gen : Nat) : CtrlAction
  | launch (gen : Nat) (query : List Char) : CtrlAction
  | clearStore : CtrlAction
deriving DecidableEq

/-- `struct App`. `child` holds the generation number of the running scan
task, `nextGen` numbers task generations, and `trace` is a ghost history of
controller actions (not a field of the Rust struct). The query buffer is the
list of its characters. -/
structure AppM : Type where
  exit : Bool := false
  records : Store := []
  query : List Char := []
  editing : Bool := false
  child : Option Nat := none
  nextGen : Nat := 0
  trace : List CtrlAction := []
deriving DecidableEq

/-- `App::start_scanner`: cancel and await the running task if present, then
spawn the new scan task for the current query and store its handle. It does
not touch `records`. -/
def startScanner (a : AppM) : AppM :=
  let a1 : AppM :=
    match a.child with
    | some g => { a with child := none, trace := a.trace ++ [CtrlAction.cancelAwait g] }
    | none => a
  { a1 with
    child := some a1.nextGen
    nextGen := a1.nextGen + 1
    trace := a1.trace ++ [CtrlAction.launch a1.nextGen a.query] }

/-- `self.records.lock().unwrap().entries.clear()`. -/
def clearRecords (a : AppM) : AppM :=
  { a with records := [], trace := a.trace ++ [CtrlAction.clearStore] }

/-- The key codes `App::handle_key_event` distinguishes. -/
inductive KeyCode : Type where
  | char (c : Char) : KeyCode
  | esc : KeyCode
  | enter : KeyCode
  | backspace : KeyCode
  | other : KeyCode
deriving DecidableEq

/-- `App::handle_key_event` (lines 195–222). In editing mode, `Esc` and
`Enter` both run `editing = false; start_scanner; records.clear()`, in that
order; `Backspace` runs `self.query.pop().unwrap_or(..)`, which removes the
last character when there is one and does nothing otherwise. -/
def handleKeyEvent (a : AppM) (k : KeyCode) : AppM :=
  if a.editing then
    match k with
    | .char c => { a with query := a.query ++ [c] }
    | .esc => clearRecords (startScanner { a with editing := false })
    | .backspace => { a with query := a.query.dropLast }
    | .enter => clearRecords (startScanner { a with editing := false })
    | .other => a
  else
    match k with
    | .char c =>
      if c = 'q' then { a with exit := true }
      else if c = '/' then { a with editing := true }
      else a
    | .esc => { a with exit := true }
    | .enter => a
    | .backspace => a
    | .other => a

/-- `main` (lines 296–306): build the default `App`; when a query argument
was supplied, set the query and start the scanner, otherwise set the query
to the empty string; then set `app.editing = false` in either case. -/
def mainInit (q : Option (List Char)) : AppM :=
  let app : AppM := {}
  let app : AppM :=
    match q with
    | some qs => startScanner { app with query := qs }
    | none => { app with query := [] }
  { app with editing := false }

/-- A sample editing-mode state (used to instantiate theorems). -/
def sampleEditing : AppM := { editing := true }

/-- A sample editing-mode state with a two-character query buffer. -/
def sampleEditingAb : AppM := { editing := true, query := ['a', 'b'] }

/-- A sample editing-mode state with a running task and a non-empty store. -/
def sampleCommit : AppM :=
  { editing := true, records := [RecordEntry.A 1 "z"], query := ['x'],
    child := some 3, nextGen := 7 }

/-- A sample viewing-mode state with a running task and a non-empty store. -/
def sampleRunning : AppM :=
  { records := [RecordEntry.A 5 "h"], child := some 0, nextGen := 1 }

/-! Order lemmas for the derived `Ord` on `RecordEntry` -/

theorem lexLe_trans {a b c : Nat} {n m p : String}
    (h1 : lexLe a b n m) (h2 : lexLe b c m p) : lexLe a c n p := by
  simp only [lexLe, Bool.or_eq_true, Bool.and_eq_true, decide_eq_true_eq] at h1 h2 ⊢
  rcases h1 with h1 | ⟨rfl, h1⟩ <;> rcases h2 with h2 | ⟨rfl, h2⟩
  · exact Or.inl (Nat.lt_trans h1 h2)
  · exact Or.inl h1
  · exact Or.inl h2
  · exact Or.inr ⟨rfl, le_trans h1 h2⟩

theorem lexLe_total (a b : Nat) (n m : String) : lexLe a b n m || lexLe b a m n := by
  simp only [lexLe, Bool.or_eq_true, Bool.and_eq_true, decide_eq_true_eq]
  rcases Nat.lt_trichotomy a b with h | rfl | h
  · exact Or.inl (Or.inl h)
  · rcases le_total n m with h | h
    · exact Or.inl (Or.inr ⟨rfl, h⟩)
    · exact Or.inr (Or.inr ⟨rfl, h⟩)
  · exact Or.inr (Or.inl h)

theorem lexLe_antisymm {a b : Nat} {n m : String}
    (h1 : lexLe a b n m) (h2 : lexLe b a m n) : a = b ∧ n = m := by
  simp only [lexLe, Bool.or_eq_true, Bool.and_eq_true, decide_eq_true_eq] at h1 h2
  rcases h1 with h1 | ⟨rfl, h1⟩ <;> rcases h2 with h2 | ⟨h2eq, h2⟩
  · exact absurd h2 (Nat.lt_asymm h1)
  · exact absurd h1 (by rw [h2eq]; exact lt_irrefl a)
  · exact absurd h2 (lt_irrefl a)
  · exact ⟨rfl, le_antisymm h1 h2⟩

theorem RecordEntry.leTrans {x y z : RecordEntry} (h1 : le x y) (h2 : le y z) :
    le x z := by
  cases x <;> cases y <;> cases z <;> simp [le] at h1 h2 ⊢ <;>
    exact lexLe_trans h1 h2

theorem RecordEntry.leTotal (x y : RecordEntry) : le x y || le y x := by
  cases x <;> cases y <;> simp only [le] <;>
    first
      | rfl
      | exact lexLe_total ..

theorem RecordEntry.leAntisymm {x y : RecordEntry} (h1 : le x y) (h2 : le y x) :
    x = y := by
  cases x <;> cases y <;> simp [le] at h1 h2 <;>
    (obtain ⟨h3, h4⟩ := lexLe_antisymm h1 h2; rw [h3, h4])

theorem mergeSort_sorted_le (u : Store) :
    (u.mergeSort RecordEntry.le).Pairwise fun x y => RecordEntry.le x y :=
  @List.sorted_mergeSort RecordEntry RecordEntry.le
    (fun _ _ _ h1 h2 => RecordEntry.leTrans h1 h2)
    (fun x y => RecordEntry.leTotal x y) u

theorem store_eq_of_perm_of_sorted {u v : Store} (hp : u.Perm v)
    (hu : u.Pairwise fun x y => RecordEntry.le x y)
    (hv : v.Pairwise fun x y => RecordEntry.le x y) : u = v := by
  haveI : IsAntisymm RecordEntry fun x y => RecordEntry.le x y = true :=
    ⟨fun _ _ h1 h2 => RecordEntry.leAntisymm h1 h2⟩
  exact List.eq_of_perm_of_sorted hp hu hv

theorem mergeSort_perm_congr {u v : Store} (h : u.Perm v) :
    u.mergeSort RecordEntry.le = v.mergeSort RecordEntry.le :=
  store_eq_of_perm_of_sorted
    ((List.mergeSort_perm u _).trans (h.trans (List.mergeSort_perm v _).symm))
    (mergeSort_sorted_le u) (mergeSort_sorted_le v)

/-! Key lemmas -/

theorem keyOf_new (p : Binding) :
    (RecordEntry.new p.1 p.2).keyOf = bindingKey p := by
  obtain ⟨ip, nm⟩ := p
  cases ip <;> rfl

theorem get_addr_new (p : Binding) :
    (RecordEntry.new p.1 p.2).get_addr = p.1 := by
  obtain ⟨ip, nm⟩ := p
  cases ip <;> rfl

theorem evicts_eq_key (p : Binding) (r : RecordEntry) :
    evicts p.1 p.2 r = (bindingKey p == RecordEntry.keyOf r) := by
  obtain ⟨ip, nm⟩ := p
  rw [Bool.eq_iff_iff]
  cases ip <;> cases r <;>
    simp only [evicts, bindingKey, RecordEntry.keyOf, IpAddr.is_ipv4, IpAddr.is_ipv6,
      RecordEntry.is_ipv4, RecordEntry.get_name, Bool.true_and, Bool.false_and,
      beq_iff_eq, Prod.mk.injEq, true_and, false_and, Bool.false_eq_true, false_iff,
      iff_false, not_and, true_iff, iff_true] <;>
    first
      | exact eq_comm
      | simp

theorem keyFree_cons (p : Binding) (b : List Binding) (r : RecordEntry) :
    keyFree (p :: b) r = (!evicts p.1 p.2 r && keyFree b r) := by
  simp [keyFree, hasKey, evicts_eq_key, Bool.not_or]

/-! Claims about the application state machine -/

/-- Claim C7, counterexample: with no query supplied at startup the
application does not begin in editing mode. `main` runs `app.editing = false`
after the `match` on the optional argument in both branches, so the initial
state is the viewing mode even when no query was supplied. -/
theorem mainInit_none_not_editing : ¬ (mainInit none).editing = true := by
  decide

/-- Claim C7, amended: at startup, if a query string was supplied the
application begins in viewing mode with a scan started immediately for that
query; if no query was supplied it begins in viewing mode as well (not
editing mode), with an empty query buffer and no active scan. -/
theorem mainInit_state (qs : List Char) :
    (mainInit (some qs)).editing = false ∧ (mainInit (some qs)).query = qs ∧
    (mainInit (some qs)).child = some 0 ∧
    (mainInit (some qs)).trace = [CtrlAction.launch 0 qs] ∧
    (mainInit none).editing = false ∧ (mainInit none).query = [] ∧
    (mainInit none).child = none ∧ (mainInit none).trace = [] :=
  ⟨rfl, rfl, rfl, rfl, rfl, rfl, rfl, rfl⟩

/-- Claim C9: in editing mode, the `Esc` handler is the very same sequence
`editing = false; start_scanner().await; records.clear()` as the `Enter`
handler, so the two key events produce identical states; both commit the
buffer: the mode becomes viewing, a scan for the current buffer is launched,
and the record store is cleared. -/
theorem esc_commits_like_enter (a : AppM) (h : a.editing = true) :
    handleKeyEvent a KeyCode.esc = handleKeyEvent a KeyCode.enter ∧
    (handleKeyEvent a KeyCode.esc).editing = false ∧
    (handleKeyEvent a KeyCode.esc).records = [] ∧
    (handleKeyEvent a KeyCode.esc).child = some (handleKeyEvent a KeyCode.esc).nextGen.pred := by
  refine ⟨?_, ?_, ?_, ?_⟩ <;>
    cases hc : a.child <;>
      simp [handleKeyEvent, h, clearRecords, startScanner, hc]

theorem esc_commits_like_enter_witness :
    sampleEditing.editing = true ∧
    (handleKeyEvent sampleEditing KeyCode.esc = handleKeyEvent sampleEditing KeyCode.enter ∧
      (handleKeyEvent sampleEditing KeyCode.esc).editing = false ∧
      (handleKeyEvent sampleEditing KeyCode.esc).records = [] ∧
      (handleKeyEvent sampleEditing KeyCode.esc).child =
        some (handleKeyEvent sampleEditing KeyCode.esc).nextGen.pred) :=
  ⟨rfl, esc_commits_like_enter sampleEditing rfl⟩

/-- Claim C10: `Backspace` in editing mode runs `self.query.pop()` whose
`Option` result is discarded via `unwrap_or`, so it never fails: the state is
unchanged except that the query buffer loses its last character; on an empty
buffer `dropLast` keeps it empty, and on a non-empty buffer exactly the last
character is removed (the buffer becomes `take (length - 1)`). -/
theorem backspace_pops_last (a : AppM) (h : a.editing = true) :
    handleKeyEvent a KeyCode.backspace = { a with query := a.query.dropLast } ∧
    (handleKeyEvent a KeyCode.backspace).query =
      a.query.take (a.query.length - 1) := by
  refine ⟨?_, ?_⟩
  · simp [handleKeyEvent, h]
  · simp [handleKeyEvent, h, List.dropLast_eq_take]

theorem backspace_pops_last_witness :
    sampleEditingAb.editing = true ∧
    (handleKeyEvent sampleEditingAb KeyCode.backspace =
        { sampleEditingAb with query := sampleEditingAb.query.dropLast } ∧
      (handleKeyEvent sampleEditingAb KeyCode.backspace).query =
        sampleEditingAb.query.take (sampleEditingAb.query.length - 1)) :=
  ⟨rfl, backspace_pops_last sampleEditingAb rfl⟩

/-- Claim C2, counterexample: `start_scanner` never clears the record store.
Started on a state with a running task and a non-empty store, it cancels and
awaits the old task and launches the new one, but the store still holds the
old entry and no clear action is in the trace: the store is not cleared
before the new task is launched (the clear happens later, in the key-event
handler, after `start_scanner` returned). -/
theorem startScanner_does_not_clear :
    (startScanner sampleRunning).records ≠ [] ∧
    CtrlAction.clearStore ∉ (startScanner sampleRunning).trace := by
  decide

/-- Claim C2, amended: on a query commit, the running scan task (if any) is
first cancelled and awaited, then the new scan task is launched, and only
after that is the record store cleared (by the key-event handler, after
`start_scanner` returned — not by `start_scanner` between cancel and launch).
Right after the commit handling returns the store snapshot is empty. -/
theorem commit_cancel_launch_then_clear (a : AppM) (h : a.editing = true) :
    (handleKeyEvent a KeyCode.enter).records = [] ∧
    (handleKeyEvent a KeyCode.enter).trace =
      a.trace ++
        (match a.child with
          | some g => [CtrlAction.cancelAwait g, CtrlAction.launch a.nextGen a.query,
              CtrlAction.clearStore]
          | none => [CtrlAction.launch a.nextGen a.query, CtrlAction.clearStore]) := by
  cases hc : a.child <;>
    simp [handleKeyEvent, h, clearRecords, startScanner, hc]

theorem commit_cancel_launch_then_clear_witness :
    sampleCommit.editing = true ∧
    ((handleKeyEvent sampleCommit KeyCode.enter).records = [] ∧
      (handleKeyEvent sampleCommit KeyCode.enter).trace =
        sampleCommit.trace ++
          [CtrlAction.cancelAwait 3, CtrlAction.launch 7 ['x'], CtrlAction.clearStore]) :=
  ⟨rfl, commit_cancel_launch_then_clear sampleCommit rfl⟩

/-! Claims about the scan task -/

/-- Claim C3, counterexample: an erroneous response element is fatal to the
listen loop, not skipped. With the error as the first stream item, the
binding of the following well-formed response is never applied (the loop
result is the untouched empty store), while consuming the same stream
without the error does apply it. -/
theorem scanLoop_error_not_skipped :
    scanLoop [] [Except.error (), Except.ok ⟨[⟨RecordKind.A 5, "h"⟩]⟩] = [] ∧
    RecordEntry.A 5 "h" ∈ scanLoop [] [Except.ok ⟨[⟨RecordKind.A 5, "h"⟩]⟩] := by
  refine ⟨rfl, ?_⟩
  simp [scanLoop, applyBatch, applyOne, responseBatch, to_ip_addr, RecordEntry.new]

/-- Claim C3, amended: a single erroneous (malformed/undecodable) response
element is fatal to that scan: the `while let Some(Ok(response))` pattern
fails to match `Some(Err(_))`, the listen loop exits at the first erroneous
element, and no response after the error is consumed — the store keeps only
what the responses before the error produced. -/
theorem scanLoop_stops_at_first_error (s : Store) (pre : List Response)
    (e : Unit) (post : List (Except Unit Response)) :
    scanLoop s (pre.map Except.ok ++ Except.error e :: post) =
      scanLoop s (pre.map Except.ok) := by
  induction pre generalizing s with
  | nil => rfl
  | cons r rs ih => simpa [scanLoop] using ih (applyBatch s (responseBatch r))

/-- Claim C4, counterexample: when opening the discovery session fails, the
spawned scan task calls `.unwrap()` on the `Err` and panics; the failure is
not surfaced as an error value to the caller of `start_scanner` (which has
already returned `()` before the task body even runs). -/
theorem scanTask_open_failure_panic_ce :
    scanTask (Except.error ()) [] = TaskOutcome.panicked := rfl

/-- Claim C4, amended: when opening the discovery session fails (e.g. invalid
query syntax), the spawned scan task panics via `unwrap` inside the detached
task; the error is not returned to the caller of `start_scanner`, and no
bindings are applied to the store by that scan (the task never reaches the
listen loop). -/
theorem scanTask_open_failure_panics (e : Unit) (s0 : Store) :
    scanTask (Except.error e) s0 = TaskOutcome.panicked := rfl

/-! Claim about batch atomicity (the per-lock-acquisition decomposition) -/

theorem foldl_runOp_pairs (b : List Binding) (s : Store) :
    ((b.flatMap fun p => [StoreOp.evictOp p, StoreOp.pushOp p]).foldl runOp s) =
      b.foldl applyOne s := by
  induction b generalizing s with
  | nil => rfl
  | cons p b ih =>
    simp only [List.flatMap_cons, List.foldl_append, List.foldl_cons, List.foldl_nil]
    exact ih (applyOne s p)

theorem foldl_runOp_batchOps (b : List Binding) (s : Store) :
    (batchOps b).foldl runOp s = applyBatch s b := by
  rw [batchOps, List.foldl_append, foldl_runOp_pairs]
  rfl

/-- Claim C5, counterexample: a snapshot taken between the critical sections
of one batch does not reflect a complete set of prior `apply` calls. From
the empty store, after the first two lock acquisitions of the batch
`[(v4 5, "a"), (v4 9, "b")]` (the `retain` and `push` of the first binding),
the observable store is `[A 5 "a"]`, which is neither the store before the
batch (`[]`) nor the store after the complete batch (`[A 5 "a", A 9 "b"]`):
the batch is observed partially applied. -/
theorem snapshot_observes_midbatch_state :
    ¬ (midStore [] [(IpAddr.v4 5, "a"), (IpAddr.v4 9, "b")] 2 = applyAll [] ∨
       midStore [] [(IpAddr.v4 5, "a"), (IpAddr.v4 9, "b")] 2 =
         applyAll [[(IpAddr.v4 5, "a"), (IpAddr.v4 9, "b")]]) := by
  intro hor
  rcases hor with h | h
  · exact List.cons_ne_nil _ _ h
  · have hlen := congrArg List.length h
    have h2 : (applyAll [[(IpAddr.v4 5, "a"), (IpAddr.v4 9, "b")]]).length = 2 := by
      show (applyBatch [] [(IpAddr.v4 5, "a"), (IpAddr.v4 9, "b")]).length = 2
      rw [applyBatch, List.length_mergeSort]
      rfl
    rw [h2] at hlen
    exact absurd hlen (by decide)

/-- Claim C5, amended: each individual store operation (the `retain`, the
`push`, the `sort`) is atomic — each takes the lock separately — and their
sequence implements `apply(batch)`; but one batch is not atomic with respect
to a concurrent `snapshot()`: between the per-binding critical sections a
snapshot observes the batch partially applied — after the first two
operations of a two-binding batch the snapshot holds the first binding of
the batch but no entry for the second, although the completed batch contains
both. -/
theorem snapshot_between_ops (p q : Binding) (h : bindingKey p ≠ bindingKey q) :
    midStore [] [p, q] 2 = [RecordEntry.new p.1 p.2] ∧
    RecordEntry.new q.1 q.2 ∉ midStore [] [p, q] 2 ∧
    RecordEntry.new q.1 q.2 ∈ applyBatch [] [p, q] ∧
    (batchOps [p, q]).foldl runOp [] = applyBatch [] [p, q] := by
  have h1 : midStore [] [p, q] 2 = [RecordEntry.new p.1 p.2] := rfl
  refine ⟨h1, ?_, ?_, foldl_runOp_batchOps [p, q] []⟩
  · rw [h1]
    intro hmem
    have hEq : RecordEntry.new q.1 q.2 = RecordEntry.new p.1 p.2 :=
      List.mem_singleton.mp hmem
    exact h (by rw [← keyOf_new p, ← keyOf_new q, hEq])
  · have hmem : RecordEntry.new q.1 q.2 ∈ [p, q].foldl applyOne [] := by
      simp [applyOne]
    simpa [applyBatch] using
      ((List.mergeSort_perm ([p, q].foldl applyOne []) RecordEntry.le).mem_iff).mpr hmem

/-! Decomposition of one batch application -/

theorem foldl_applyOne_eq (b : List Binding) (s : Store) :
    b.foldl applyOne s = s.filter (keyFree b) ++ b.foldl applyOne [] := by
  induction b generalizing s with
  | nil =>
    rw [List.foldl_nil, List.foldl_nil, List.append_nil]
    exact (List.filter_eq_self.mpr fun r _ => by simp [keyFree, hasKey]).symm
  | cons p b ih =>
    have hfilter : ∀ t : Store,
        (applyOne t p).filter (keyFree b) =
          t.filter (keyFree (p :: b)) ++
            ([RecordEntry.new p.1 p.2].filter (keyFree b)) := by
      intro t
      rw [applyOne, List.filter_append, List.filter_filter]
      congr 1
      exact List.filter_congr fun r _ => by
        rw [keyFree_cons]
        exact Bool.and_comm _ _
    rw [List.foldl_cons, ih (applyOne s p), hfilter s, List.foldl_cons,
      ih (applyOne [] p), hfilter []]
    simp

theorem mem_foldl_applyOne {r : RecordEntry} (b : List Binding) (s : Store)
    (h : r ∈ b.foldl applyOne s) :
    r ∈ s ∨ ∃ p ∈ b, r = RecordEntry.new p.1 p.2 := by
  induction b generalizing s with
  | nil => exact Or.inl h
  | cons p b ih =>
    rw [List.foldl_cons] at h
    rcases ih (applyOne s p) h with h1 | ⟨q, hq, rfl⟩
    · simp only [applyOne, List.mem_append, List.mem_filter,
        List.mem_singleton] at h1
      rcases h1 with ⟨h2, _⟩ | h2
      · exact Or.inl h2
      · exact Or.inr ⟨p, List.mem_cons_self p b, h2⟩
    · exact Or.inr ⟨q, List.mem_cons_of_mem p hq, rfl⟩

theorem keyFree_residual (b : List Binding) {r : RecordEntry}
    (h : r ∈ b.foldl applyOne []) : keyFree b r = false := by
  rcases mem_foldl_applyOne b [] h with h1 | ⟨p, hp, rfl⟩
  · simp at h1
  · have hk : hasKey b ((RecordEntry.new p.1 p.2).keyOf) = true := by
      rw [keyOf_new]
      simp only [hasKey, List.any_eq_true]
      exact ⟨p, hp, by simp⟩
    simp [keyFree, hk]

theorem filter_keyFree_residual (b : List Binding) :
    (b.foldl applyOne []).filter (keyFree b) = [] :=
  List.filter_eq_nil_iff.mpr fun r hr => by simp [keyFree_residual b hr]

/-! Characterization of the entries holding a given key -/

theorem hasKey_false_filter (b : List Binding) (k : Bool × String)
    (hb : hasKey b k = false) : b.filter (fun q => bindingKey q == k) = [] := by
  rw [List.filter_eq_nil_iff]
  simp only [hasKey, List.any_eq_false] at hb
  exact hb

theorem lastWithKey_none {b : List Binding} {k : Bool × String}
    (hb : hasKey b k = false) : lastWithKey k b = none := by
  rw [lastWithKey, hasKey_false_filter b k hb]
  rfl

theorem lastWithKey_isSome {b : List Binding} {k : Bool × String}
    (hb : hasKey b k = true) : ∃ x, lastWithKey k b = some x := by
  rw [lastWithKey]
  rcases hl : (b.filter fun q => bindingKey q == k).getLast? with _ | x
  · rw [List.getLast?_eq_none_iff, List.filter_eq_nil_iff] at hl
    simp only [hasKey, List.any_eq_true] at hb
    obtain ⟨q, hq, hpq⟩ := hb
    exact absurd hpq (by simpa using hl q hq)
  · exact ⟨x, rfl⟩

theorem lastWithKey_cons (k : Bool × String) (p : Binding) (b : List Binding) :
    lastWithKey k (p :: b) =
      (lastWithKey k b).or (if bindingKey p == k then some p else none) := by
  rw [lastWithKey, show p :: b = [p] ++ b from rfl, List.filter_append,
    List.getLast?_append, lastWithKey]
  congr 1
  by_cases hk : (bindingKey p == k) = true
  · simp [List.filter_cons, hk]
  · simp [List.filter_cons, hk]

theorem lastWithKey_append (k : Bool × String) (h b : List Binding) :
    lastWithKey k (h ++ b) =
      if hasKey b k then lastWithKey k b else lastWithKey k h := by
  rw [lastWithKey, List.filter_append, List.getLast?_append]
  by_cases hb : hasKey b k = true
  · obtain ⟨x, hx⟩ := lastWithKey_isSome hb
    rw [if_pos hb, hx]
    rw [lastWithKey] at hx
    rw [hx, Option.or_some]
  · rw [if_neg (by simp [hb]),
      hasKey_false_filter b k (by simpa using hb)]
    rfl

theorem filter_key_residual (b : List Binding) (k : Bool × String) :
    (b.foldl applyOne []).filter (fun r => RecordEntry.keyOf r == k) =
      ((lastWithKey k b).map fun p => RecordEntry.new p.1 p.2).toList := by
  induction b with
  | nil => simp [lastWithKey]
  | cons p b ih =>
    have happ : applyOne [] p = [RecordEntry.new p.1 p.2] := rfl
    rw [List.foldl_cons, foldl_applyOne_eq b (applyOne [] p), happ,
      List.filter_append, List.filter_filter, ih, lastWithKey_cons]
    by_cases hb : hasKey b k = true
    · obtain ⟨x, hx⟩ := lastWithKey_isSome hb
      have hnil : ([RecordEntry.new p.1 p.2].filter
          fun r => (RecordEntry.keyOf r == k) && keyFree b r) = [] := by
        rw [List.filter_eq_nil_iff]
        intro r hr
        rw [List.mem_singleton] at hr
        subst hr
        by_cases hk : (bindingKey p == k) = true
        · have hkk : bindingKey p = k := beq_iff_eq.mp hk
          simp [keyFree, keyOf_new, hkk, hb]
        · simp [keyOf_new, hk]
      rw [hnil, hx, Option.or_some]
      simp
    · have hb2 : hasKey b k = false := by simpa using hb
      rw [lastWithKey_none hb2, Option.none_or]
      by_cases hk : (bindingKey p == k) = true
      · have hkk : bindingKey p = k := beq_iff_eq.mp hk
        have hkf : keyFree b (RecordEntry.new p.1 p.2) = true := by
          simp [keyFree, keyOf_new, hkk, hb2]
        simp [List.filter_cons, keyOf_new, hk, hkf]
      · simp [List.filter_cons, keyOf_new, hk]

theorem perm_option_toList {α : Type} {l : List α} {o : Option α}
    (h : l.Perm o.toList) : l = o.toList := by
  cases o with
  | none => exact List.perm_nil.mp h
  | some a => exact List.perm_singleton.mp h

theorem filter_key_applyBatch (s : Store) (b : List Binding) (k : Bool × String)
    (o : Option Binding)
    (hs : s.filter (fun r => RecordEntry.keyOf r == k) =
      (o.map fun p => RecordEntry.new p.1 p.2).toList) :
    (applyBatch s b).filter (fun r => RecordEntry.keyOf r == k) =
      (((if hasKey b k then lastWithKey k b else o).map
        fun p => RecordEntry.new p.1 p.2)).toList := by
  have hperm : ((applyBatch s b).filter fun r => RecordEntry.keyOf r == k).Perm
      ((b.foldl applyOne s).filter fun r => RecordEntry.keyOf r == k) :=
    (List.mergeSort_perm (b.foldl applyOne s) RecordEntry.le).filter _
  apply perm_option_toList
  refine hperm.trans ?_
  rw [foldl_applyOne_eq b s, List.filter_append, List.filter_filter,
    filter_key_residual]
  by_cases hb : hasKey b k = true
  · have hnil : (s.filter fun r => (RecordEntry.keyOf r == k) && keyFree b r) = [] := by
      rw [List.filter_eq_nil_iff]
      intro r _ hcond
      rw [Bool.and_eq_true] at hcond
      obtain ⟨hrk, hrf⟩ := hcond
      have hrk2 : RecordEntry.keyOf r = k := beq_iff_eq.mp hrk
      rw [keyFree, hrk2, hb] at hrf
      simp at hrf
    rw [hnil, hb, if_pos rfl]
    simp
  · have hb2 : hasKey b k = false := by simpa using hb
    have heq : (s.filter fun r => (RecordEntry.keyOf r == k) && keyFree b r) =
        s.filter fun r => RecordEntry.keyOf r == k := by
      apply List.filter_congr
      intro r _
      by_cases hrk : (RecordEntry.keyOf r == k) = true
      · have hrk2 : RecordEntry.keyOf r = k := beq_iff_eq.mp hrk
        simp [hrk, keyFree, hrk2, hb2]
      · simp [hrk]
    rw [heq, hs, lastWithKey_none hb2, hb2]
    simp

theorem applyAll_filter_key (bs : List (List Binding)) (k : Bool × String) :
    (applyAll bs).filter (fun r => RecordEntry.keyOf r == k) =
      ((lastWithKey k bs.flatten).map fun p => RecordEntry.new p.1 p.2).toList := by
  suffices h : ∀ (s : Store) (hist : List Binding),
      s.filter (fun r => RecordEntry.keyOf r == k) =
        ((lastWithKey k hist).map fun p => RecordEntry.new p.1 p.2).toList →
      (bs.foldl applyBatch s).filter (fun r => RecordEntry.keyOf r == k) =
        ((lastWithKey k (hist ++ bs.flatten)).map
          fun p => RecordEntry.new p.1 p.2).toList by
    have h0 : (([] : Store).filter fun r => RecordEntry.keyOf r == k) =
        ((lastWithKey k []).map fun p => RecordEntry.new p.1 p.2).toList := by
      simp [lastWithKey]
    simpa using h [] [] h0
  induction bs with
  | nil =>
    intro s hist hs
    simpa using hs
  | cons b bs ih =>
    intro s hist hs
    rw [List.foldl_cons]
    have hstep := filter_key_applyBatch s b k (lastWithKey k hist) hs
    rw [← lastWithKey_append k hist b] at hstep
    have := ih (applyBatch s b) (hist ++ b) hstep
    rw [this, List.flatten_cons, ← List.append_assoc]

/-! Claims about the record model and store contents -/

/-- Claim C1: after any sequence of batch applications starting from the
empty store, for every `(family, hostName)` key the store holds at most one
entry with that key, and the entries with key `k` are exactly the entry
built from the most recently applied binding with key `k` (none when no such
binding was applied) — later bindings for the same key evict earlier ones,
also within a single batch, because `lastWithKey` takes the last matching
element of the concatenation of all batches in application order. -/
theorem applyAll_unique_latest (bs : List (List Binding)) (k : Bool × String) :
    (applyAll bs).countP (fun r => RecordEntry.keyOf r == k) ≤ 1 ∧
    (applyAll bs).filter (fun r => RecordEntry.keyOf r == k) =
      ((lastWithKey k bs.flatten).map fun p => RecordEntry.new p.1 p.2).toList := by
  refine ⟨?_, applyAll_filter_key bs k⟩
  rw [List.countP_eq_length_filter, applyAll_filter_key bs k]
  cases lastWithKey k bs.flatten <;> simp

theorem filter_name_family_v4 (s : Store) (nm : String) :
    ((s.filter fun r => r.get_name == nm).filter fun r => r.is_ipv4) =
      s.filter fun r => RecordEntry.keyOf r == (true, nm) := by
  rw [List.filter_filter]
  apply List.filter_congr
  intro r _
  cases r <;> rfl

theorem filter_name_family_v6 (s : Store) (nm : String) :
    ((s.filter fun r => r.get_name == nm).filter fun r => r.is_ipv6) =
      s.filter fun r => RecordEntry.keyOf r == (false, nm) := by
  rw [List.filter_filter]
  apply List.filter_congr
  intro r _
  cases r <;> rfl

theorem getLast?_map_addr (o : Option Binding) :
    ((((o.map fun p => RecordEntry.new p.1 p.2).toList).getLast?).map
      RecordEntry.get_addr) = o.map Prod.fst := by
  cases o with
  | none => rfl
  | some p => simp [get_addr_new]

/-- Claim C6: on any store reachable by a sequence of batch applications
from the empty store, `find` returns the address of the most recently
applied IPv4 binding for the host name and the address of the most recently
applied IPv6 binding for it, each `none` when no such binding was applied.
`find` takes `pop()` (the last element) of the name- and family-filtered
entries, which is deterministic, and that filtered list holds at most the
single entry of the most recently applied binding for the key — in
particular, re-applying an IPv4 binding with a different address for the
same host replaces the old address rather than accumulating. -/
theorem find_applyAll (bs : List (List Binding)) (nm : String) :
    RecordEntries.find (applyAll bs) nm =
      ((lastWithKey (true, nm) bs.flatten).map Prod.fst,
       (lastWithKey (false, nm) bs.flatten).map Prod.fst) := by
  simp only [RecordEntries.find]
  rw [filter_name_family_v4, filter_name_family_v6, applyAll_filter_key,
    applyAll_filter_key, getLast?_map_addr, getLast?_map_addr]

/-- Claim C8: `apply` is idempotent under re-application of an identical
batch — for every store state and every batch, applying the batch twice in
succession yields the very same entry vector (same entries, same iteration
order after the final `sort`) as applying it once. -/
theorem applyBatch_idempotent (s : Store) (b : List Binding) :
    applyBatch (applyBatch s b) b = applyBatch s b := by
  have hperm : (b.foldl applyOne ((b.foldl applyOne s).mergeSort RecordEntry.le)).Perm
      (b.foldl applyOne s) := by
    rw [foldl_applyOne_eq b ((b.foldl applyOne s).mergeSort RecordEntry.le)]
    have h1 : (((b.foldl applyOne s).mergeSort RecordEntry.le).filter (keyFree b)).Perm
        ((b.foldl applyOne s).filter (keyFree b)) :=
      (List.mergeSort_perm (b.foldl applyOne s) RecordEntry.le).filter _
    have h2 : (b.foldl applyOne s).filter (keyFree b) = s.filter (keyFree b) := by
      rw [foldl_applyOne_eq b s, List.filter_append, List.filter_filter,
        filter_keyFree_residual, List.append_nil]
      exact List.filter_congr fun r _ => Bool.and_self _
    rw [h2] at h1
    have h3 := h1.append_right (b.foldl applyOne [])
    rw [← foldl_applyOne_eq b s] at h3
    exact h3
  exact mergeSort_perm_congr hperm

theorem snapshot_between_ops_witness :
    bindingKey (IpAddr.v4 5, "a") ≠ bindingKey (IpAddr.v4 9, "b") ∧
    (midStore [] [(IpAddr.v4 5, "a"), (IpAddr.v4 9, "b")] 2 =
        [RecordEntry.new (IpAddr.v4 5) "a"] ∧
      RecordEntry.new (IpAddr.v4 9) "b" ∉
        midStore [] [(IpAddr.v4 5, "a"), (IpAddr.v4 9, "b")] 2 ∧
      RecordEntry.new (IpAddr.v4 9) "b" ∈
        applyBatch [] [(IpAddr.v4 5, "a"), (IpAddr.v4 9, "b")] ∧
      (batchOps [(IpAddr.v4 5, "a"), (IpAddr.v4 9, "b")]).foldl runOp [] =
        applyBatch [] [(IpAddr.v4 5, "a"), (IpAddr.v4 9, "b")]) :=
  ⟨by decide, snapshot_between_ops (IpAddr.v4 5, "a") (IpAddr.v4 9, "b") (by decide)⟩

end MdnsClient
